import Mathlib

/-!
Verification of the FastMemory in-process key/value store
(src/fast_memory.py) against its natural-language specification.

The Python source is shallowly embedded below.  Conventions:
  - Python dicts and SortedDicts become association lists over String keys;
    a SortedDict keeps its bindings sorted by key (this ordering is load
    bearing for the expiry sweep, which iterates the TTL SortedDict in key
    order and stops early).
  - time.time() becomes an explicit `now : Nat` argument threaded into every
    operation that reads the clock.
  - Locks are no-ops in this sequential model: every claim under check is a
    sequential (single-thread) property.
  - Unused subsystems (hash maps, ordered sets, the read buffer, persistence)
    are not modelled: no claim mentions them.
-/

set_option maxRecDepth 20000
set_option maxHeartbeats 1000000

namespace FastMem

/-- Python values stored by the engine, restricted to the fragment the claims
exercise: None, bool, int, str (as its byte content), bytes, and lists. -/
inductive Val where
  | vnull : Val
  | vbool : Bool → Val
  | vint : Int → Val
  | vstr : List Nat → Val
  | vbytes : List Nat → Val
  | vlist : List Val → Val

/-- Association lookup, first binding wins (dict keys are unique; the hot-key
list is scanned front to back and only the first match is used). -/
def alookup {α : Type} : List (String × α) → String → Option α
  | [], _ => none
  | (k, v) :: t, key => if k = key then some v else alookup t key

/-- Remove the first binding of a key: dict.pop(key, None) on the unique
binding of a dict, and the index-based pop in the hot-key scan. -/
def apop {α : Type} : List (String × α) → String → List (String × α)
  | [], _ => []
  | (k, v) :: t, key => if k = key then t else (k, v) :: apop t key

def strBytes (s : String) : List Nat := s.data.map Char.toNat

/-- Lexicographic order on byte lists. -/
def ltBytes : List Nat → List Nat → Bool
  | [], [] => false
  | [], _ :: _ => true
  | _ :: _, [] => false
  | a :: as, b :: bs => if a < b then true else if b < a then false else ltBytes as bs

/-- Python string comparison: lexicographic on code points. -/
def strLt (a b : String) : Bool := ltBytes (strBytes a) (strBytes b)

/-- SortedDict assignment d[k] = v: replace the binding in place, or insert it
at its sorted position. -/
def sdInsert {α : Type} : List (String × α) → String → α → List (String × α)
  | [], key, v => [(key, v)]
  | (k, w) :: t, key, v =>
    if key = k then (key, v) :: t
    else if strLt key k then (key, v) :: (k, w) :: t
    else (k, w) :: sdInsert t key v

/-- Plain dict assignment d[k] = v (replace, or append in insertion order). -/
def dInsert {α : Type} : List (String × α) → String → α → List (String × α)
  | [], key, v => [(key, v)]
  | (k, w) :: t, key, v =>
    if k = key then (key, v) :: t else (k, w) :: dInsert t key v

/-- Ordering used by the hot-key SortedList, whose sort key is
fun x => (-hits, key): larger hit counts come first, ties break by key. -/
def hotBefore (a b : String × Nat) : Bool :=
  decide (b.2 < a.2) || (decide (a.2 = b.2) && strLt a.1 b.1)

/-- SortedList.add on the hot-key list: insert at the sorted position. -/
def hotAdd : List (String × Nat) → String × Nat → List (String × Nat)
  | [], e => [e]
  | x :: t, e => if hotBefore e x then e :: x :: t else x :: hotAdd t e

/-- FastMemory update hot keys: scan for the key; if found, pop that stat and
re-add it with hits + 1; otherwise add a fresh (key, 1) stat. -/
def updateHotKeys (hl : List (String × Nat)) (key : String) : List (String × Nat) :=
  match alookup hl key with
  | some hits => hotAdd (apop hl key) (key, hits + 1)
  | none => hotAdd hl (key, 1)

/-- FastMemory is hot key: any stat for this key with more than 100 hits. -/
def isHotKey (hl : List (String × Nat)) (key : String) : Bool :=
  hl.any fun p => p.1 == key && decide (100 < p.2)

/-- python-xxhash streaming hasher object: carries the bytes hashed so far. -/
structure XXH64 where
  stream : List Nat
deriving DecidableEq

/-- The update(bs) method of a python-xxhash hasher: it appends bs to the
hashed stream inside the object and, following the hashlib API, returns None
(second component none models the returned None). -/
def xxhUpdate (h : XXH64) (bs : List Nat) : XXH64 × Option XXH64 :=
  (⟨h.stream ++ bs⟩, none)

inductive PyError where
  | attributeError : PyError
deriving DecidableEq

/-- Abstract stand-in for the xxh64 mixing function (intdigest of the bytes
streamed so far).  Its exact value is irrelevant: the digest is computed on
the result of update, which is None, so this is never reached. -/
def xxh64Digest (stream : List Nat) : Nat :=
  stream.foldl (fun a b => (a * 31 + b) % (2 ^ 64)) 0

/-- OptimizedSet: an array of 64-bit digests kept sorted, plus one shared
streaming hasher object created once in the constructor. -/
structure OSet where
  data : List Nat
  hasher : XXH64
deriving DecidableEq

def emptyOSet : OSet := ⟨[], ⟨[]⟩⟩

/-- The expression h = self hash func .update(str(item).encode()).intdigest():
update mutates the shared hasher and evaluates to None, so the intdigest
attribute access on that None raises AttributeError. -/
def osetHash (o : OSet) (item : String) : OSet × Except PyError Nat :=
  match xxhUpdate o.hasher (strBytes item) with
  | (h, ret) =>
    ({ o with hasher := h },
      match ret with
      | some chained => Except.ok (xxh64Digest chained.stream)
      | none => Except.error PyError.attributeError)

/-- bisect.insort on the sorted digest array. -/
def insort (l : List Nat) (x : Nat) : List Nat :=
  match l with
  | [] => [x]
  | y :: t => if x < y then x :: y :: t else y :: insort t x

/-- OptimizedSet.add: hash the item, and insort the digest if absent.  A raised
error is reported alongside the (already mutated) object. -/
def osetAdd (o : OSet) (item : String) : OSet × Option PyError :=
  match osetHash o item with
  | (o2, Except.error e) => (o2, some e)
  | (o2, Except.ok h) =>
    if h ∈ o2.data then (o2, none)
    else ({ o2 with data := insort o2.data h }, none)

/-- OptimizedSet.remove: hash the item and pop the digest if present. -/
def osetRemove (o : OSet) (item : String) : OSet × Option PyError :=
  match osetHash o item with
  | (o2, Except.error e) => (o2, some e)
  | (o2, Except.ok h) =>
    if h ∈ o2.data then ({ o2 with data := o2.data.erase h }, none)
    else (o2, none)

/-- The mutable state of one FastMemory instance (the components the claims
touch).  The TTL SortedDict maps key to absolute expiry time and is kept
sorted by key, exactly as SortedDict() with string keys is. -/
structure StoreState where
  storage : List (String × Val)
  lists : List (String × List Val)
  sets : List (String × OSet)
  ttlIdx : List (String × Nat)
  hotKeys : List (String × Nat)
  valueCache : List (String × Val)
  writeBuffer : List (String × Val × Option Nat)
  indexes : List (String × List (String × Nat))
  revIndexes : List (String × List String)

def emptyStore : StoreState := ⟨[], [], [], [], [], [], [], [], []⟩

/-- Replay one buffered operation inside flush write buffer (only set
operations are ever buffered).  Note the Python truthiness test if ttl:
a ttl of 0 installs no TTL record. -/
def replayOp (now : Nat) (st : StoreState) (p : String × Val × Option Nat) : StoreState :=
  let st := { st with storage := sdInsert st.storage p.1 p.2.1 }
  match p.2.2 with
  | some t => if t ≠ 0 then { st with ttlIdx := sdInsert st.ttlIdx p.1 (now + t) } else st
  | none => st

/-- FastMemory flush write buffer: drain the deque, replaying each op under
the global lock. -/
def flushWriteBuffer (now : Nat) (st : StoreState) : StoreState :=
  st.writeBuffer.foldl (replayOp now) { st with writeBuffer := [] }

/-- FastMemory.set: buffer the write (flushing when the deque reaches its
maxlen of 1000), update the hot-key stats, store the value, and install the
TTL record when a truthy ttl is given.  Returns True.  Nothing here touches
the value cache. -/
def setOp (st : StoreState) (now : Nat) (key : String) (value : Val)
    (ttl : Option Nat) : Bool × StoreState :=
  let st := { st with writeBuffer := st.writeBuffer ++ [(key, value, ttl)] }
  let st := if 1000 ≤ st.writeBuffer.length then flushWriteBuffer now st else st
  let st := { st with hotKeys := updateHotKeys st.hotKeys key }
  let st := { st with storage := sdInsert st.storage key value }
  let st :=
    match ttl with
    | some t => if t ≠ 0 then { st with ttlIdx := sdInsert st.ttlIdx key (now + t) } else st
    | none => st
  (true, st)

/-- FastMemory remove expired key: drop the entry, its TTL record, its value
cache entry, and its secondary-index references. -/
def removeExpiredKey (st : StoreState) (key : String) : StoreState :=
  let st := { st with
    storage := apop st.storage key
    ttlIdx := apop st.ttlIdx key
    valueCache := apop st.valueCache key }
  let names := (alookup st.revIndexes key).getD []
  let st := { st with
    indexes := names.foldl (fun ixs name =>
      match alookup ixs name with
      | some m => dInsert ixs name (apop m key)
      | none => ixs ++ [(name, [])]) st.indexes }
  { st with revIndexes := apop st.revIndexes key }

/-- The tail of FastMemory.get once the fast path and the TTL check have
fallen through: read the value (or the default), update the hot-key stats,
and mirror the value just returned into the value cache when the key is hot. -/
def getBody (st : StoreState) (key : String) (dflt : Val) : Val × StoreState :=
  let value := (alookup st.storage key).getD dflt
  let st := { st with hotKeys := updateHotKeys st.hotKeys key }
  let st :=
    if isHotKey st.hotKeys key then
      { st with valueCache := dInsert st.valueCache key value }
    else st
  (value, st)

/-- FastMemory.get: first consult the value cache and return the cached value
directly (no TTL check, no lock); otherwise check the TTL record and, when it
has passed, lazily reclaim the key and return the default; otherwise fall
through to the main body. -/
def getOp (st : StoreState) (now : Nat) (key : String) (dflt : Val) :
    Val × StoreState :=
  match alookup st.valueCache key with
  | some v => (v, st)
  | none =>
    match alookup st.ttlIdx key with
    | some exp =>
      if exp < now then (dflt, removeExpiredKey st key)
      else getBody st key dflt
    | none => getBody st key dflt

/-- Modelled from the spec: the repository source defines no exists method;
the spec gives its contract as expiry-aware presence, with the same lazy
reclamation as get.  Unlike the source's get, the spec contract consults no
value cache. -/
def existsOp (st : StoreState) (now : Nat) (key : String) : Bool × StoreState :=
  match alookup st.ttlIdx key with
  | some exp =>
    if exp < now then (false, removeExpiredKey st key)
    else ((alookup st.storage key).isSome, st)
  | none => ((alookup st.storage key).isSome, st)

/-- The scan in FastMemory cleanup expired: iterate the TTL SortedDict in its
own (key-sorted) order, collecting keys whose expiry has passed, and break at
the first record that has not expired. -/
def collectExpired : List (String × Nat) → Nat → List String
  | [], _ => []
  | (k, exp) :: t, now => if exp ≤ now then k :: collectExpired t now else []

/-- FastMemory cleanup expired: collect with early exit, then batch-remove
under the global lock.  The Python method is annotated -> None and returns
no count. -/
def cleanupExpired (st : StoreState) (now : Nat) : StoreState :=
  (collectExpired st.ttlIdx now).foldl removeExpiredKey st

/-- FastMemory.lpush: dq.extendleft(reversed(values)).  extendleft appends
each element of its argument to the left one by one, so the deque gains
reverse(reversed(values)) = values at its head. -/
def lpush (st : StoreState) (key : String) (values : List Val) : Nat × StoreState :=
  let dq := (alookup st.lists key).getD []
  let dq := values.reverse.reverse ++ dq
  (dq.length, { st with lists := dInsert st.lists key dq })

/-- FastMemory.rpush: dq.extend(values). -/
def rpush (st : StoreState) (key : String) (values : List Val) : Nat × StoreState :=
  let dq := (alookup st.lists key).getD []
  let dq := dq ++ values
  (dq.length, { st with lists := dInsert st.lists key dq })

/-- The member loop of sadd and srem: apply the per-member operation until one
raises, reporting the (mutated) set object and the error if any. -/
def osetFold (f : OSet → String → OSet × Option PyError) :
    OSet → List String → OSet × Option PyError
  | o, [] => (o, none)
  | o, m :: ms =>
    match f o m with
    | (o2, none) => osetFold f o2 ms
    | (o2, some e) => (o2, some e)

/-- FastMemory.sadd: fetch (lazily creating) the OptimizedSet, record its
size, add every member, and return the growth in size.  An exception raised
by add propagates out of sadd. -/
def sadd (st : StoreState) (key : String) (members : List String) :
    Except PyError Nat × StoreState :=
  let o := (alookup st.sets key).getD emptyOSet
  let originalSize := o.data.length
  match osetFold osetAdd o members with
  | (o2, none) =>
    (Except.ok (o2.data.length - originalSize),
     { st with sets := dInsert st.sets key o2 })
  | (o2, some e) => (Except.error e, { st with sets := dInsert st.sets key o2 })

/-- FastMemory.srem: symmetric to sadd, returning the shrink in size. -/
def srem (st : StoreState) (key : String) (members : List String) :
    Except PyError Nat × StoreState :=
  let o := (alookup st.sets key).getD emptyOSet
  let originalSize := o.data.length
  match osetFold osetRemove o members with
  | (o2, none) =>
    (Except.ok (originalSize - o2.data.length),
     { st with sets := dInsert st.sets key o2 })
  | (o2, some e) => (Except.error e, { st with sets := dInsert st.sets key o2 })

/-- n successive calls get(key, None) at one instant, keeping only the state. -/
def iterGet (now : Nat) (key : String) : Nat → StoreState → StoreState
  | 0, st => st
  | n + 1, st => iterGet now key n (getOp st now key Val.vnull).2

/-! Concrete execution traces used to exhibit the defects.  Each is reachable
from a fresh store through the public API alone. -/

/-- Fresh store, set("k", 0), then 100 calls get("k"): the hit count reaches
101, so the hundredth get promotes "k" and caches its value 0. -/
def promotedStore : StoreState :=
  iterGet 0 "k" 100 (setOp emptyStore 0 "k" (Val.vint 0) none).2

/-- promotedStore after set("k", 1). -/
def staleStore : StoreState := (setOp promotedStore 0 "k" (Val.vint 1) none).2

/-- Fresh store, set("k", 0, ttl=5) at time 0, then 100 calls get("k") at
time 1 (before expiry): "k" is promoted and cached while carrying a TTL
record that expires at time 5. -/
def hotTtlStore : StoreState :=
  iterGet 1 "k" 100 (setOp emptyStore 0 "k" (Val.vint 0) (some 5)).2

/-- Fresh store, set("a", 0, ttl=100) and set("b", 1, ttl=5) at time 0: the
TTL SortedDict holds ("a", 100) before ("b", 5) because it orders by key. -/
def twoTtlStore : StoreState :=
  (setOp (setOp emptyStore 0 "a" (Val.vint 0) (some 100)).2 0 "b" (Val.vint 1) (some 5)).2

/-- Store whose value cache holds a stale 0 for "k". -/
def cachedStore : StoreState := { emptyStore with valueCache := [("k", Val.vint 0)] }

/-- Store whose hot-key stats already record 100 hits for the absent key "k". -/
def almostHotStore : StoreState := { emptyStore with hotKeys := [("k", 100)] }

/-!
The Codec.  FastMemory delegates serialization to the msgpack, ujson, pickle
and zlib libraries.  The msgpack and JSON byte formats are modelled in full
on the value fragment above (the encoders emit the same bytes the libraries
do for such values; the decoders are real parsers).  pickle and the DEFLATE
body of zlib are modelled by invertible stand-ins, with the library facts
that matter to the claims (the pickle round-trip contract; the two header
bytes a zlib level-1 stream starts with) stated in the doc comments.
-/

/-- Big-endian bytes of n, k bytes wide. -/
def toBE : Nat → Nat → List Nat
  | 0, _ => []
  | k + 1, n => toBE k (n / 256) ++ [n % 256]

/-- Big-endian value of a byte list. -/
def fromBE (l : List Nat) : Nat := l.foldl (fun a b => a * 256 + b) 0

/-- Read exactly n bytes or fail (the msgpack library raises on truncation). -/
def readN (n : Nat) (l : List Nat) : Option (List Nat × List Nat) :=
  if n ≤ l.length then some (l.take n, l.drop n) else none

mutual

/-- msgpack.packb with use_bin_type=True, restricted to the value fragment:
nil, booleans, the int ladder (positive fixint, uint8/16/32/64, negative
fixint, int8/16/32/64), str (fixstr, str8/16/32), bin (bin8/16/32) and
arrays (fixarray, array16/32), each with the narrowest width that fits,
exactly as the library chooses. -/
def mpack : Val → List Nat
  | Val.vnull => [192]
  | Val.vbool false => [194]
  | Val.vbool true => [195]
  | Val.vint n =>
    if 0 ≤ n then
      let m := n.toNat
      if m < 128 then [m]
      else if m < 256 then [204, m]
      else if m < 65536 then 205 :: toBE 2 m
      else if m < 4294967296 then 206 :: toBE 4 m
      else 207 :: toBE 8 m
    else
      if -32 ≤ n then [(n + 256).toNat]
      else if -128 ≤ n then [208, (n + 256).toNat]
      else if -32768 ≤ n then 209 :: toBE 2 (n + 65536).toNat
      else if -2147483648 ≤ n then 210 :: toBE 4 (n + 4294967296).toNat
      else 211 :: toBE 8 (n + 18446744073709551616).toNat
  | Val.vstr bs =>
    if bs.length < 32 then (160 + bs.length) :: bs
    else if bs.length < 256 then 217 :: bs.length :: bs
    else if bs.length < 65536 then 218 :: toBE 2 bs.length ++ bs
    else 219 :: toBE 4 bs.length ++ bs
  | Val.vbytes bs =>
    if bs.length < 256 then 196 :: bs.length :: bs
    else if bs.length < 65536 then 197 :: toBE 2 bs.length ++ bs
    else 198 :: toBE 4 bs.length ++ bs
  | Val.vlist vs =>
    (if vs.length < 16 then [144 + vs.length]
     else if vs.length < 65536 then 220 :: toBE 2 vs.length
     else 221 :: toBE 4 vs.length) ++ mpackList vs

/-- Concatenated encodings of the elements of an array. -/
def mpackList : List Val → List Nat
  | [] => []
  | v :: vs => mpack v ++ mpackList vs

end

/-- Decode exactly count consecutive objects with a given one-object
decoder. -/
def munpackGo (step : List Nat → Option (Val × List Nat)) :
    Nat → List Nat → Option (List Val × List Nat)
  | 0, l => some ([], l)
  | count + 1, l =>
    match step l with
    | some (v, r) =>
      match munpackGo step count r with
      | some p => some (v :: p.1, p.2)
      | none => none
    | none => none

/-- One-object msgpack decoder dispatch (msgpack.unpackb internals):
dispatch on the tag byte, covering every tag the encoder above emits; the
decoding of array elements is delegated to goN. -/
def munpackStep (goN : Nat → List Nat → Option (List Val × List Nat)) :
    List Nat → Option (Val × List Nat)
  | [] => none
  | b :: r =>
    if b < 128 then some (Val.vint b, r)
    else if 224 ≤ b then some (Val.vint ((b : Int) - 256), r)
    else if 160 ≤ b ∧ b < 192 then
      match readN (b - 160) r with
      | some p => some (Val.vstr p.1, p.2)
      | none => none
    else if 144 ≤ b ∧ b < 160 then
      match goN (b - 144) r with
      | some p => some (Val.vlist p.1, p.2)
      | none => none
    else if b = 192 then some (Val.vnull, r)
    else if b = 194 then some (Val.vbool false, r)
    else if b = 195 then some (Val.vbool true, r)
    else if b = 196 then
      match r with
      | len :: r2 =>
        match readN len r2 with
        | some p => some (Val.vbytes p.1, p.2)
        | none => none
      | [] => none
    else if b = 197 then
      match readN 2 r with
      | some q =>
        match readN (fromBE q.1) q.2 with
        | some p => some (Val.vbytes p.1, p.2)
        | none => none
      | none => none
    else if b = 198 then
      match readN 4 r with
      | some q =>
        match readN (fromBE q.1) q.2 with
        | some p => some (Val.vbytes p.1, p.2)
        | none => none
      | none => none
    else if b = 204 then
      match r with
      | m :: r2 => some (Val.vint m, r2)
      | [] => none
    else if b = 205 then
      match readN 2 r with
      | some p => some (Val.vint (fromBE p.1), p.2)
      | none => none
    else if b = 206 then
      match readN 4 r with
      | some p => some (Val.vint (fromBE p.1), p.2)
      | none => none
    else if b = 207 then
      match readN 8 r with
      | some p => some (Val.vint (fromBE p.1), p.2)
      | none => none
    else if b = 208 then
      match r with
      | m :: r2 =>
        some (Val.vint (if 128 ≤ m then (m : Int) - 256 else (m : Int)), r2)
      | [] => none
    else if b = 209 then
      match readN 2 r with
      | some p =>
        some (Val.vint (if 32768 ≤ fromBE p.1 then (fromBE p.1 : Int) - 65536
          else (fromBE p.1 : Int)), p.2)
      | none => none
    else if b = 210 then
      match readN 4 r with
      | some p =>
        some (Val.vint (if 2147483648 ≤ fromBE p.1 then (fromBE p.1 : Int) - 4294967296
          else (fromBE p.1 : Int)), p.2)
      | none => none
    else if b = 211 then
      match readN 8 r with
      | some p =>
        some (Val.vint (if 9223372036854775808 ≤ fromBE p.1 then
          (fromBE p.1 : Int) - 18446744073709551616 else (fromBE p.1 : Int)), p.2)
      | none => none
    else if b = 217 then
      match r with
      | len :: r2 =>
        match readN len r2 with
        | some p => some (Val.vstr p.1, p.2)
        | none => none
      | [] => none
    else if b = 218 then
      match readN 2 r with
      | some q =>
        match readN (fromBE q.1) q.2 with
        | some p => some (Val.vstr p.1, p.2)
        | none => none
      | none => none
    else if b = 219 then
      match readN 4 r with
      | some q =>
        match readN (fromBE q.1) q.2 with
        | some p => some (Val.vstr p.1, p.2)
        | none => none
      | none => none
    else if b = 220 then
      match readN 2 r with
      | some q =>
        match goN (fromBE q.1) q.2 with
        | some p => some (Val.vlist p.1, p.2)
        | none => none
      | none => none
    else if b = 221 then
      match readN 4 r with
      | some q =>
        match goN (fromBE q.1) q.2 with
        | some p => some (Val.vlist p.1, p.2)
        | none => none
      | none => none
    else none

/-- Fuelled one-object decoder: each nesting level burns one unit of fuel. -/
def munpack : Nat → List Nat → Option (Val × List Nat)
  | 0, _ => none
  | fuel + 1, l => munpackStep (munpackGo (munpack fuel)) l

mutual

/-- Values msgpack.packb accepts in this fragment: ints within the 64-bit
ladder (outside it the library raises), byte content that is real bytes, and
lengths below 2^32. -/
def mencB : Val → Bool
  | Val.vnull => true
  | Val.vbool _ => true
  | Val.vint n => decide (-9223372036854775808 ≤ n) && decide (n < 18446744073709551616)
  | Val.vstr bs => decide (bs.length < 4294967296) && bs.all (· < 256)
  | Val.vbytes bs => decide (bs.length < 4294967296) && bs.all (· < 256)
  | Val.vlist vs => decide (vs.length < 4294967296) && mencListB vs

def mencListB : List Val → Bool
  | [] => true
  | v :: vs => mencB v && mencListB vs

end

mutual

/-- Nesting depth of a value, the quantity the fuelled decoders burn. -/
def vdepth : Val → Nat
  | Val.vlist vs => vdepthList vs + 1
  | _ => 1

def vdepthList : List Val → Nat
  | [] => 0
  | v :: vs => max (vdepth v) (vdepthList vs)

end

/-- msgpack.unpackb with raw=False: decode one object and raise (here: error)
on trailing bytes or malformed input.  The fuel 2|bs|+2 exceeds the
nesting depth of anything encodable in |bs| bytes. -/
def msgUnpackb (bs : List Nat) : Except Unit Val :=
  match munpack (2 * bs.length + 2) bs with
  | some (v, []) => Except.ok v
  | _ => Except.error ()

/-- msgpack.packb: bytes of the value, or an error outside the fragment the
library accepts. -/
def msgPackb (v : Val) : Except Unit (List Nat) :=
  if mencB v then Except.ok (mpack v) else Except.error ()

/-- Little-endian decimal digits of n, fuelled (the fuel n itself always
suffices). -/
def natDigitsRev : Nat → Nat → List Nat
  | 0, _ => []
  | fuel + 1, n => if n = 0 then [] else n % 10 :: natDigitsRev fuel (n / 10)

/-- Decimal ASCII digits of n (most significant first). -/
def natDecimal (n : Nat) : List Nat :=
  if n = 0 then [48] else ((natDigitsRev n n).map (· + 48)).reverse

mutual

/-- ujson.dumps restricted to the escape-free fragment: null, true, false,
decimal ints, double-quoted strings whose bytes need no escaping (jsonWfB
below restricts to that fragment), and comma-separated arrays, with no
whitespace — exactly the bytes ujson emits for such values. -/
def jprint : Val → List Nat
  | Val.vnull => [110, 117, 108, 108]
  | Val.vbool true => [116, 114, 117, 101]
  | Val.vbool false => [102, 97, 108, 115, 101]
  | Val.vint n => if n < 0 then 45 :: natDecimal (-n).toNat else natDecimal n.toNat
  | Val.vstr bs => 34 :: bs ++ [34]
  | Val.vbytes bs => 34 :: bs ++ [34]
  | Val.vlist vs => 91 :: jprintSep vs ++ [93]

/-- Elements joined by commas. -/
def jprintSep : List Val → List Nat
  | [] => []
  | [v] => jprint v
  | v :: vs => jprint v ++ 44 :: jprintSep vs

end

mutual

/-- Values ujson.dumps accepts and emits escape-free, so that the printer
above is byte-exact: no bytes objects (ujson raises TypeError on bytes),
ints on the 64-bit ladder, and strings of printable ASCII without the quote
or backslash characters (anything else gets escaped by the library and is
outside this model). -/
def jsonWfB : Val → Bool
  | Val.vnull => true
  | Val.vbool _ => true
  | Val.vint n => decide (-9223372036854775808 ≤ n) && decide (n < 18446744073709551616)
  | Val.vstr bs => bs.all fun b => 32 ≤ b && b ≤ 126 && b ≠ 34 && b ≠ 92
  | Val.vbytes _ => false
  | Val.vlist vs => jsonWfListB vs

def jsonWfListB : List Val → Bool
  | [] => true
  | v :: vs => jsonWfB v && jsonWfListB vs

end

def isDigit (b : Nat) : Bool := 48 ≤ b && b ≤ 57

/-- Greedy digit run: the longest prefix of decimal digit bytes. -/
def parseDigits : List Nat → List Nat × List Nat
  | [] => ([], [])
  | b :: t =>
    if isDigit b then
      match parseDigits t with
      | (ds, r) => (b :: ds, r)
    else ([], b :: t)

/-- Numeric value of an ASCII digit run. -/
def digitsVal (ds : List Nat) : Nat := Nat.ofDigits 10 ((ds.map (· - 48)).reverse)

/-- String body: bytes up to the closing quote. -/
def takeUntilQuote : List Nat → Option (List Nat × List Nat)
  | [] => none
  | b :: r =>
    if b = 34 then some ([], r)
    else
      match takeUntilQuote r with
      | some p => some (b :: p.1, p.2)
      | none => none

/-- Comma-separated elements of a non-empty array, consuming the closing
bracket, with a given one-value parser; the count fuel bounds the number of
elements (the caller passes one more than the byte length, which always
suffices). -/
def jparseElemsGo (step : List Nat → Option (Val × List Nat)) :
    Nat → List Nat → Option (List Val × List Nat)
  | 0, _ => none
  | gas + 1, l =>
    match step l with
    | some (v, r) =>
      match r with
      | 44 :: r2 =>
        match jparseElemsGo step gas r2 with
        | some p => some (v :: p.1, p.2)
        | none => none
      | 93 :: r2 => some ([v], r2)
      | _ => none
    | none => none

/-- One-value JSON parser dispatch (ujson.loads internals) for the fragment
the printer emits; parsing the elements of a non-empty array is delegated to
elems. -/
def jparseStep (elems : List Nat → Option (List Val × List Nat)) :
    List Nat → Option (Val × List Nat)
  | [] => none
  | b :: r =>
    if b = 110 then
      match r with
      | 117 :: 108 :: 108 :: r2 => some (Val.vnull, r2)
      | _ => none
    else if b = 116 then
      match r with
      | 114 :: 117 :: 101 :: r2 => some (Val.vbool true, r2)
      | _ => none
    else if b = 102 then
      match r with
      | 97 :: 108 :: 115 :: 101 :: r2 => some (Val.vbool false, r2)
      | _ => none
    else if b = 34 then
      match takeUntilQuote r with
      | some p => some (Val.vstr p.1, p.2)
      | none => none
    else if b = 91 then
      match r with
      | 93 :: r2 => some (Val.vlist [], r2)
      | _ =>
        match elems r with
        | some p => some (Val.vlist p.1, p.2)
        | none => none
    else if b = 45 then
      match parseDigits r with
      | ([], _) => none
      | (d :: ds, r2) => some (Val.vint (-(digitsVal (d :: ds) : Int)), r2)
    else if isDigit b then
      match parseDigits r with
      | (ds, r2) => some (Val.vint (digitsVal (b :: ds) : Int), r2)
    else none

/-- Fuelled one-value JSON parser: each nesting level burns one unit of
fuel; the per-element gas passed to jparseElemsGo is one more than the byte
length, which always suffices. -/
def jparse : Nat → List Nat → Option (Val × List Nat)
  | 0, _ => none
  | fuel + 1, l => jparseStep (fun r => jparseElemsGo (jparse fuel) (r.length + 1) r) l

/-- ujson.loads: parse one JSON value, raising (here: error) on trailing
bytes or malformed input. -/
def jsonLoads (bs : List Nat) : Except Unit Val :=
  match jparse (2 * bs.length + 2) bs with
  | some (v, []) => Except.ok v
  | _ => Except.error ()

/-- ujson.dumps: the printed bytes, or an error outside the modelled
fragment (ujson raises TypeError on bytes objects). -/
def jsonDumps (v : Val) : Except Unit (List Nat) :=
  if jsonWfB v then Except.ok (jprint v) else Except.error ()

/-- The pickle library is external to this repository and its opcode format
is out of scope; it is modelled as an invertible binary codec — its
documented contract pickle.loads(pickle.dumps(v)) == v — framed as the
protocol header 0x80 0x05, a payload (reusing the msgpack byte model), and
the STOP opcode 0x2e. -/
def pickleDumps (v : Val) : List Nat := 128 :: 5 :: (mpack v ++ [46])

/-- Inverse of the pickle model above. -/
def pickleLoads (bs : List Nat) : Except Unit Val :=
  match bs with
  | 128 :: 5 :: rest =>
    match munpack (2 * rest.length + 2) rest with
    | some (v, [46]) => Except.ok v
    | _ => Except.error ()
  | _ => Except.error ()

/-- FastMemory.serialize: msgpack for format "msgpack", ujson for "json",
and the pickle fallback for every other format string. -/
def serialize (v : Val) (format : String) : Except Unit (List Nat) :=
  if format = "msgpack" then msgPackb v
  else if format = "json" then jsonDumps v
  else Except.ok (pickleDumps v)

/-- FastMemory.deserialize: the matching decoder per format string. -/
def deserialize (bs : List Nat) (format : String) : Except Unit Val :=
  if format = "msgpack" then msgUnpackb bs
  else if format = "json" then jsonLoads bs
  else pickleLoads bs

/-- zlib.compress(data, level=1).  Library fact (checked against CPython):
a level-1 zlib stream starts with the header bytes 0x78 0x01 — CMF 0x78,
then an FLG whose FLEVEL field encodes "fastest"; only the default level 6
produces the 0x78 0x9c header that decompress_value below looks for.  The
DEFLATE body is modelled as the identity on the payload, which keeps the
codec invertible without modelling Huffman coding. -/
def zlibCompress (bs : List Nat) : List Nat := 120 :: 1 :: bs

/-- Inverse of the zlib model above: strip the level-1 header. -/
def zlibDecompress (bs : List Nat) : Except Unit (List Nat) :=
  match bs with
  | 120 :: 1 :: payload => Except.ok payload
  | _ => Except.error ()

/-- FastMemory.compress_value: serialize with the default format (msgpack)
and compress with zlib level 1 only when the result exceeds 1024 bytes. -/
def compress_value (v : Val) : Except Unit (List Nat) :=
  match serialize v "msgpack" with
  | Except.ok serialized =>
    if 1024 < serialized.length then Except.ok (zlibCompress serialized)
    else Except.ok serialized
  | Except.error e => Except.error e

/-- FastMemory.decompress_value: if the input starts with the zlib marker
0x78 0x9c, inflate it; deserialize with the default format (msgpack); any
exception on the way is swallowed and the raw input bytes are returned. -/
def decompress_value (bs : List Nat) : Val :=
  let attempt : Except Unit Val :=
    match (if bs.take 2 = [120, 156] then zlibDecompress bs else Except.ok bs) with
    | Except.ok raw => deserialize raw "msgpack"
    | Except.error e => Except.error e
  match attempt with
  | Except.ok v => v
  | Except.error _ => Val.vbytes bs

/-- A byte list that cannot extend a decimal literal: empty, or starting
with a non-digit.  Every context in which the JSON printer emits an integer
(end of input, before a comma, before a closing bracket) satisfies it. -/
def jdelimB : List Nat → Bool
  | [] => true
  | b :: _ => !(isDigit b)

/-- The value fragment each format round-trips: the msgpack fragment for
"msgpack", the escape-free fragment for "json", and the msgpack fragment
again for the pickle fallback (whose modelled payload reuses the msgpack
bytes; the real library accepts strictly more). -/
def serializableFor (format : String) (v : Val) : Bool :=
  if format = "msgpack" then mencB v
  else if format = "json" then jsonWfB v
  else mencB v

/-- A value whose msgpack serialization (1028 bytes) exceeds the 1024-byte
compression threshold. -/
def bigVal : Val := Val.vbytes (List.replicate 1025 0)

/-! Helper lemmas shared by several claims. -/

theorem alookup_dInsert_self {α : Type} (l : List (String × α)) (key : String) (v : α) :
    alookup (dInsert l key v) key = some v := by
  induction l with
  | nil => simp [dInsert, alookup]
  | cons p t ih =>
    by_cases h : p.1 = key
    · simp [dInsert, alookup, h]
    · simp [dInsert, alookup, h, ih]

theorem alookup_sdInsert_self {α : Type} (l : List (String × α)) (key : String) (v : α) :
    alookup (sdInsert l key v) key = some v := by
  induction l with
  | nil => simp [sdInsert, alookup]
  | cons p t ih =>
    by_cases h : key = p.1
    · simp [sdInsert, alookup, h]
    · by_cases h2 : strLt key p.1 = true
      · simp [sdInsert, alookup, h, h2]
      · have h3 : ¬ p.1 = key := fun hh => h hh.symm
        simp [sdInsert, alookup, h, h2, h3, ih]

theorem valueCache_replayOp (now : Nat) (st : StoreState) (p : String × Val × Option Nat) :
    (replayOp now st p).valueCache = st.valueCache := by
  unfold replayOp
  cases p.2.2 with
  | none => rfl
  | some t => by_cases h : t ≠ 0 <;> simp [h]

theorem valueCache_foldl_replayOp (now : Nat) (l : List (String × Val × Option Nat))
    (st : StoreState) : (l.foldl (replayOp now) st).valueCache = st.valueCache := by
  induction l generalizing st with
  | nil => rfl
  | cons p t ih => rw [List.foldl_cons, ih, valueCache_replayOp]

/-- Nothing in FastMemory.set touches the value cache: neither the buffered
write, nor a buffer flush, nor the direct store write invalidates it. -/
theorem setOp_valueCache (st : StoreState) (now : Nat) (key : String) (value : Val)
    (ttl : Option Nat) : ((setOp st now key value ttl).2).valueCache = st.valueCache := by
  unfold setOp
  cases ttl with
  | none =>
    by_cases h : 1000 ≤ st.writeBuffer.length + 1 <;>
      simp [h, flushWriteBuffer, valueCache_foldl_replayOp, valueCache_replayOp]
  | some t =>
    by_cases h : 1000 ≤ st.writeBuffer.length + 1 <;>
      by_cases h2 : t ≠ 0 <;>
        simp [h, h2, flushWriteBuffer, valueCache_foldl_replayOp, valueCache_replayOp]

/-- FastMemory.set ends by writing the value into the primary store. -/
theorem setOp_storage (st : StoreState) (now : Nat) (key : String) (value : Val)
    (ttl : Option Nat) :
    alookup ((setOp st now key value ttl).2).storage key = some value := by
  unfold setOp
  cases ttl with
  | none =>
    by_cases h : 1000 ≤ st.writeBuffer.length + 1 <;> simp [h, alookup_sdInsert_self]
  | some t =>
    by_cases h : 1000 ≤ st.writeBuffer.length + 1 <;>
      by_cases h2 : t ≠ 0 <;> simp [h, h2, alookup_sdInsert_self]

/-- FastMemory.get returns straight from the value cache when the key has a
cached entry, leaving the state untouched: no TTL check, no reclamation, no
hit-count update. -/
theorem getOp_cache_hit (st : StoreState) (now : Nat) (key : String) (dflt v : Val)
    (h : alookup st.valueCache key = some v) : getOp st now key dflt = (v, st) := by
  simp [getOp, h]

theorem mem_hotAdd (l : List (String × Nat)) (e : String × Nat) : e ∈ hotAdd l e := by
  induction l with
  | nil => simp [hotAdd]
  | cons x t ih =>
    by_cases h : hotBefore e x = true <;> simp [hotAdd, h, ih]

theorem alookup_hotAdd_of_none (l : List (String × Nat)) (key : String) (hits : Nat)
    (h : alookup l key = none) : alookup (hotAdd l (key, hits)) key = some hits := by
  induction l with
  | nil => simp [hotAdd, alookup]
  | cons x t ih =>
    have hx : ¬ x.1 = key := by
      intro he
      simp [alookup, he] at h
    have ht : alookup t key = none := by
      simpa [alookup, hx] using h
    by_cases hb : hotBefore (key, hits) x = true
    · simp [hotAdd, hb, alookup]
    · simp [hotAdd, hb, alookup, hx, ih ht]

theorem isHotKey_of_mem (hl : List (String × Nat)) (key : String) (hits : Nat)
    (hmem : (key, hits) ∈ hl) (hgt : 100 < hits) : isHotKey hl key = true := by
  unfold isHotKey
  rw [List.any_eq_true]
  exact ⟨(key, hits), hmem, by simp [hgt]⟩

/-- Claim C1, exhibit of the code bug.  Reachable trace: fresh store,
set("k", 0), 100 calls get("k") (the last one promotes "k" and caches 0),
then set("k", 1).  The very next get("k") returns the stale cached 0, not
the 1 just written: set never invalidates the value cache, contradicting the
claim that set(k, v) followed immediately by get(k) returns v in every prior
state, including cached ones. -/
theorem set_then_get_returns_stale_cached_value :
    (getOp staleStore 0 "k" Val.vnull).1 = Val.vint 0 ∧
    alookup staleStore.storage "k" = some (Val.vint 1) ∧
    Val.vint 0 ≠ Val.vint 1 :=
  ⟨rfl, rfl, by simp⟩

/-- Claim C2, exhibit of the code bug: after any set(key, value) the value
cache still holds whatever it held for that key before, while the primary
store holds the new value — the claimed invalidation on set does not exist,
so the cached value is stale with respect to a completed write whenever the
two differ. -/
theorem set_leaves_value_cache_entry_in_place (st : StoreState) (now : Nat)
    (key : String) (value c : Val) (ttl : Option Nat)
    (h : alookup st.valueCache key = some c) :
    alookup ((setOp st now key value ttl).2).valueCache key = some c ∧
    alookup ((setOp st now key value ttl).2).storage key = some value := by
  rw [setOp_valueCache]
  exact ⟨h, setOp_storage st now key value ttl⟩

/-- Witness for the C2 theorem at a concrete store. -/
theorem set_leaves_value_cache_entry_in_place_witness :
    alookup cachedStore.valueCache "k" = some (Val.vint 0) ∧
    (alookup ((setOp cachedStore 0 "k" (Val.vint 1) none).2).valueCache "k"
        = some (Val.vint 0) ∧
     alookup ((setOp cachedStore 0 "k" (Val.vint 1) none).2).storage "k"
        = some (Val.vint 1)) :=
  ⟨rfl, set_leaves_value_cache_entry_in_place cachedStore 0 "k" (Val.vint 1)
    (Val.vint 0) none rfl⟩

/-- Claim C3, exhibit of the code bug.  Reachable trace: fresh store,
set("k", 0, ttl=5) at time 0, then 100 calls get("k") at time 1, promoting
"k" into the value cache.  At time 10 the TTL (expiry 5) has long passed,
yet get("k", None) returns the cached 0 — not the default — and reclaims
nothing, because the cache fast path runs before the TTL check.  The
spec-modelled exists correctly reports false at time 10. -/
theorem expired_hot_key_get_skips_reclamation :
    alookup hotTtlStore.ttlIdx "k" = some 5 ∧ (5 : Nat) < 10 ∧
    getOp hotTtlStore 10 "k" Val.vnull = (Val.vint 0, hotTtlStore) ∧
    Val.vint 0 ≠ Val.vnull ∧
    (existsOp hotTtlStore 10 "k").1 = false :=
  ⟨rfl, by decide, getOp_cache_hit hotTtlStore 10 "k" Val.vnull (Val.vint 0) rfl,
   by simp, rfl⟩

/-- Claim C4, exhibit of the code bug.  With TTL records ("a", 100) and
("b", 5) — the TTL SortedDict orders by key, not by expiry — a sweep at time
50 inspects "a" first, sees expiry 100 has not passed, and breaks out,
leaving the expired key "b" fully intact: the sweep does not remove exactly
the expired set (and the Python method, annotated -> None, returns no count
at all). -/
theorem cleanup_early_exit_misses_expired_key :
    twoTtlStore.ttlIdx = [("a", 100), ("b", 5)] ∧
    alookup twoTtlStore.ttlIdx "b" = some 5 ∧ (5 : Nat) ≤ 50 ∧
    cleanupExpired twoTtlStore 50 = twoTtlStore ∧
    alookup (cleanupExpired twoTtlStore 50).storage "b" = some (Val.vint 1) :=
  ⟨rfl, rfl, by decide, rfl, rfl⟩

/-- Claim C5, exhibit of the code bug: sadd(k, "x", "x", "y") on a fresh
store does not return 2 — it raises AttributeError, because OptimizedSet.add
computes self hash func .update(...).intdigest() and the hashlib-style
update returns None. -/
theorem sadd_raises_attribute_error :
    (sadd emptyStore "s" ["x", "x", "y"]).1 = Except.error PyError.attributeError ∧
    ∀ n : Nat, (sadd emptyStore "s" ["x", "x", "y"]).1 ≠ Except.ok n := by
  have h : (sadd emptyStore "s" ["x", "x", "y"]).1
      = Except.error PyError.attributeError := rfl
  exact ⟨h, fun n hn => by rw [h] at hn; exact nomatch hn⟩

/-- Claim C6, counterexample to the claim as stated: lpush(k, 1, 2, 3) on an
empty list leaves the list reading head-to-tail as [1, 2, 3], not [3, 2, 1]:
extendleft(reversed(values)) prepends the block in argument order, the two
reversals cancelling. -/
theorem lpush_order_counterexample :
    alookup ((lpush emptyStore "l" [Val.vint 1, Val.vint 2, Val.vint 3]).2).lists "l"
      = some [Val.vint 1, Val.vint 2, Val.vint 3] ∧
    some [Val.vint 1, Val.vint 2, Val.vint 3]
      ≠ some [Val.vint 3, Val.vint 2, Val.vint 1] :=
  ⟨rfl, by simp⟩

/-- Claim C6 as amended: lpush prepends the pushed values as a block,
preserving the call's argument order (head-to-tail: values then the old
list); rpush appends them at the tail preserving argument order. -/
theorem lpush_prepends_block_rpush_appends (st : StoreState) (key : String)
    (values : List Val) :
    alookup ((lpush st key values).2).lists key
      = some (values ++ (alookup st.lists key).getD []) ∧
    alookup ((rpush st key values).2).lists key
      = some ((alookup st.lists key).getD [] ++ values) := by
  constructor <;> simp [lpush, rpush, alookup_dInsert_self]

/-- Claim C9: on a key absent from the primary store (no cache entry, no TTL
record, no stored value) get increments the hot-key hit count exactly as for
a present key; when that pushes the count above 100 the default itself is
cached under the key, and every subsequent get — even after a later
set(key, v2) — returns that cached default. -/
theorem absent_key_default_value_gets_cached (st : StoreState)
    (now now2 now3 now4 : Nat) (key : String) (d d2 d3 v2 : Val)
    (ttl2 : Option Nat) (n : Nat)
    (hcache : alookup st.valueCache key = none)
    (httl : alookup st.ttlIdx key = none)
    (hstore : alookup st.storage key = none)
    (hhot : alookup st.hotKeys key = some n)
    (hdup : alookup (apop st.hotKeys key) key = none)
    (hn : 100 ≤ n) :
    (getOp st now key d).1 = d ∧
    alookup ((getOp st now key d).2).hotKeys key = some (n + 1) ∧
    alookup ((getOp st now key d).2).valueCache key = some d ∧
    (getOp ((getOp st now key d).2) now2 key d2).1 = d ∧
    (getOp ((setOp ((getOp st now key d).2) now3 key v2 ttl2).2) now4 key d3).1 = d := by
  have hupd : updateHotKeys st.hotKeys key = hotAdd (apop st.hotKeys key) (key, n + 1) := by
    simp [updateHotKeys, hhot]
  have hhot2 : alookup (updateHotKeys st.hotKeys key) key = some (n + 1) := by
    rw [hupd]
    exact alookup_hotAdd_of_none _ _ _ hdup
  have hhotk : isHotKey (updateHotKeys st.hotKeys key) key = true := by
    rw [hupd]
    exact isHotKey_of_mem _ key (n + 1) (mem_hotAdd _ _) (by omega)
  have hget : getOp st now key d =
      (d, { st with hotKeys := updateHotKeys st.hotKeys key,
                    valueCache := dInsert st.valueCache key d }) := by
    simp [getOp, hcache, httl, getBody, hstore, hhotk]
  have hcache2 : alookup ((getOp st now key d).2).valueCache key = some d := by
    rw [hget]
    exact alookup_dInsert_self _ _ _
  refine ⟨by rw [hget], ?_, hcache2, ?_, ?_⟩
  · rw [hget]
    exact hhot2
  · rw [getOp_cache_hit _ now2 key d2 d hcache2]
  · have hc3 : alookup ((setOp ((getOp st now key d).2) now3 key v2 ttl2).2).valueCache key
        = some d := by
      rw [setOp_valueCache]
      exact hcache2
    rw [getOp_cache_hit _ now4 key d3 d hc3]

/-- Witness for the C9 theorem at a concrete store. -/
theorem absent_key_default_value_gets_cached_witness :
    (alookup almostHotStore.valueCache "k" = none ∧
     alookup almostHotStore.ttlIdx "k" = none ∧
     alookup almostHotStore.storage "k" = none ∧
     alookup almostHotStore.hotKeys "k" = some 100 ∧
     alookup (apop almostHotStore.hotKeys "k") "k" = none ∧
     100 ≤ 100) ∧
    ((getOp almostHotStore 0 "k" (Val.vint 7)).1 = Val.vint 7 ∧
     alookup ((getOp almostHotStore 0 "k" (Val.vint 7)).2).hotKeys "k" = some 101 ∧
     alookup ((getOp almostHotStore 0 "k" (Val.vint 7)).2).valueCache "k"
        = some (Val.vint 7) ∧
     (getOp ((getOp almostHotStore 0 "k" (Val.vint 7)).2) 1 "k" Val.vnull).1
        = Val.vint 7 ∧
     (getOp ((setOp ((getOp almostHotStore 0 "k" (Val.vint 7)).2) 2 "k"
        (Val.vint 9) none).2) 3 "k" Val.vnull).1 = Val.vint 7) :=
  ⟨⟨rfl, rfl, rfl, rfl, rfl, le_refl 100⟩,
   absent_key_default_value_gets_cached almostHotStore 0 1 2 3 "k" (Val.vint 7)
     Val.vnull Val.vnull (Val.vint 9) none 100 rfl rfl rfl rfl rfl (le_refl 100)⟩

/-- Claim C10: lpush and rpush each return the length of the key's list
after the insertion — the prior length plus the number of values pushed —
and lazily create the list if absent. -/
theorem push_returns_resulting_length (st : StoreState) (key : String)
    (values : List Val) (h : values ≠ []) :
    (lpush st key values).1
      = values.length + ((alookup st.lists key).getD []).length ∧
    (rpush st key values).1
      = ((alookup st.lists key).getD []).length + values.length ∧
    (alookup ((lpush st key values).2).lists key).isSome = true ∧
    (alookup ((rpush st key values).2).lists key).isSome = true := by
  refine ⟨?_, ?_, ?_, ?_⟩ <;> simp [lpush, rpush, alookup_dInsert_self]

/-- Witness for the C10 theorem at a concrete store. -/
theorem push_returns_resulting_length_witness :
    ([Val.vnull] ≠ ([] : List Val)) ∧
    ((lpush emptyStore "l" [Val.vnull]).1
      = [Val.vnull].length + ((alookup emptyStore.lists "l").getD []).length ∧
     (rpush emptyStore "l" [Val.vnull]).1
      = ((alookup emptyStore.lists "l").getD []).length + [Val.vnull].length ∧
     (alookup ((lpush emptyStore "l" [Val.vnull]).2).lists "l").isSome = true ∧
     (alookup ((rpush emptyStore "l" [Val.vnull]).2).lists "l").isSome = true) :=
  ⟨by simp, push_returns_resulting_length emptyStore "l" [Val.vnull] (by simp)⟩

/-! Byte-level lemmas for the codec. -/

theorem toBE_length (k n : Nat) : (toBE k n).length = k := by
  induction k generalizing n with
  | zero => rfl
  | succ k ih => simp [toBE, ih]

theorem fromBE_snoc (xs : List Nat) (b : Nat) :
    fromBE (xs ++ [b]) = fromBE xs * 256 + b := by
  simp [fromBE, List.foldl_append]

theorem fromBE_toBE (k n : Nat) (h : n < 256 ^ k) : fromBE (toBE k n) = n := by
  induction k generalizing n with
  | zero =>
    simp [fromBE, toBE]
    omega
  | succ k ih =>
    rw [toBE, fromBE_snoc, ih (n / 256) (by
      have hp : 256 ^ (k + 1) = 256 ^ k * 256 := pow_succ 256 k
      omega)]
    omega

theorem readN_exact (xs rest : List Nat) :
    readN xs.length (xs ++ rest) = some (xs, rest) := by
  simp [readN]

theorem readN_toBE (k n : Nat) (rest : List Nat) :
    readN k (toBE k n ++ rest) = some (toBE k n, rest) := by
  have h := readN_exact (toBE k n) rest
  rwa [toBE_length] at h

theorem vdepth_pos : (v : Val) → 1 ≤ vdepth v
  | Val.vnull => le_refl 1
  | Val.vbool _ => le_refl 1
  | Val.vint _ => le_refl 1
  | Val.vstr _ => le_refl 1
  | Val.vbytes _ => le_refl 1
  | Val.vlist vs => by simp [vdepth]

theorem mpack_length_pos (v : Val) : 1 ≤ (mpack v).length := by
  cases v with
  | vnull => simp [mpack]
  | vbool b => cases b <;> simp [mpack]
  | vint n => simp only [mpack]; split_ifs <;> simp
  | vstr bs => simp only [mpack]; split_ifs <;> simp
  | vbytes bs => simp only [mpack]; split_ifs <;> simp
  | vlist vs => simp only [mpack]; split_ifs <;> simp

mutual

theorem vdepth_le_mpack : (v : Val) → vdepth v ≤ (mpack v).length
  | Val.vnull => mpack_length_pos Val.vnull
  | Val.vbool b => mpack_length_pos (Val.vbool b)
  | Val.vint n => mpack_length_pos (Val.vint n)
  | Val.vstr bs => mpack_length_pos (Val.vstr bs)
  | Val.vbytes bs => mpack_length_pos (Val.vbytes bs)
  | Val.vlist vs => by
    have h := vdepthList_le_mpackList vs
    have h2 : (mpackList vs).length + 1 ≤ (mpack (Val.vlist vs)).length := by
      simp only [mpack]
      split_ifs <;> simp [toBE_length]
    simp only [vdepth]
    omega

theorem vdepthList_le_mpackList : (vs : List Val) → vdepthList vs ≤ (mpackList vs).length
  | [] => by simp [vdepthList, mpackList]
  | v :: vs => by
    have h1 := vdepth_le_mpack v
    have h2 := vdepthList_le_mpackList vs
    simp [vdepthList, mpackList]
    omega

end

theorem mpack_vbytes_length (bs : List Nat) :
    bs.length + 2 ≤ (mpack (Val.vbytes bs)).length := by
  rw [mpack]
  split_ifs <;> simp [toBE_length] <;> omega

/-! Round-trip of the msgpack model: decoding inverts encoding, with any
trailing bytes passed through.  One dispatch lemma per tag byte first, all
stated over munpackStep with an abstract element decoder goN. -/

theorem munpack_succ (fuel : Nat) (l : List Nat) :
    munpack (fuel + 1) l = munpackStep (munpackGo (munpack fuel)) l := rfl

section StepLemmas

variable (goN : Nat → List Nat → Option (List Val × List Nat))

theorem munpackStep_fixint (b : Nat) (r : List Nat) (h : b < 128) :
    munpackStep goN (b :: r) = some (Val.vint b, r) := by
  simp [munpackStep, h]

theorem munpackStep_fixneg (b : Nat) (r : List Nat) (h : 224 ≤ b) :
    munpackStep goN (b :: r) = some (Val.vint ((b : Int) - 256), r) := by
  have h1 : ¬ b < 128 := by omega
  simp [munpackStep, h1, h]

theorem munpackStep_uint8 (m : Nat) (r : List Nat) :
    munpackStep goN (204 :: m :: r) = some (Val.vint m, r) := by
  simp [munpackStep]

theorem munpackStep_uint16 (M : Nat) (r : List Nat) (hM : M < 65536) :
    munpackStep goN (205 :: (toBE 2 M ++ r)) = some (Val.vint M, r) := by
  simp [munpackStep, readN_toBE, fromBE_toBE 2 M (by norm_num; omega)]

theorem munpackStep_uint32 (M : Nat) (r : List Nat) (hM : M < 4294967296) :
    munpackStep goN (206 :: (toBE 4 M ++ r)) = some (Val.vint M, r) := by
  simp [munpackStep, readN_toBE, fromBE_toBE 4 M (by norm_num; omega)]

theorem munpackStep_uint64 (M : Nat) (r : List Nat) (hM : M < 18446744073709551616) :
    munpackStep goN (207 :: (toBE 8 M ++ r)) = some (Val.vint M, r) := by
  simp [munpackStep, readN_toBE, fromBE_toBE 8 M (by norm_num; omega)]

theorem munpackStep_int8 (m : Nat) (r : List Nat) (hs : 128 ≤ m) :
    munpackStep goN (208 :: m :: r) = some (Val.vint ((m : Int) - 256), r) := by
  simp [munpackStep, hs]

theorem munpackStep_int16 (M : Nat) (r : List Nat) (hM : M < 65536) (hs : 32768 ≤ M) :
    munpackStep goN (209 :: (toBE 2 M ++ r))
      = some (Val.vint ((M : Int) - 65536), r) := by
  simp [munpackStep, readN_toBE, fromBE_toBE 2 M (by norm_num; omega), hs]

theorem munpackStep_int32 (M : Nat) (r : List Nat) (hM : M < 4294967296)
    (hs : 2147483648 ≤ M) :
    munpackStep goN (210 :: (toBE 4 M ++ r))
      = some (Val.vint ((M : Int) - 4294967296), r) := by
  simp [munpackStep, readN_toBE, fromBE_toBE 4 M (by norm_num; omega), hs]

theorem munpackStep_int64 (M : Nat) (r : List Nat) (hM : M < 18446744073709551616)
    (hs : 9223372036854775808 ≤ M) :
    munpackStep goN (211 :: (toBE 8 M ++ r))
      = some (Val.vint ((M : Int) - 18446744073709551616), r) := by
  simp [munpackStep, readN_toBE, fromBE_toBE 8 M (by norm_num; omega), hs]

theorem munpackStep_fixstr (bs r : List Nat) (h : bs.length < 32) :
    munpackStep goN ((160 + bs.length) :: (bs ++ r)) = some (Val.vstr bs, r) := by
  have h1 : ¬ 160 + bs.length < 128 := by omega
  have h2 : ¬ 224 ≤ 160 + bs.length := by omega
  have h3 : 160 ≤ 160 + bs.length ∧ 160 + bs.length < 192 := by omega
  have h4 : 160 + bs.length - 160 = bs.length := by omega
  simp [munpackStep, h1, h2, h3, h4, readN_exact]

theorem munpackStep_str8 (bs r : List Nat) :
    munpackStep goN (217 :: bs.length :: (bs ++ r)) = some (Val.vstr bs, r) := by
  simp [munpackStep, readN_exact]

theorem munpackStep_str16 (bs r : List Nat) (h : bs.length < 65536) :
    munpackStep goN (218 :: (toBE 2 bs.length ++ (bs ++ r)))
      = some (Val.vstr bs, r) := by
  simp [munpackStep, readN_toBE, fromBE_toBE 2 bs.length (by norm_num; omega),
    readN_exact]

theorem munpackStep_str32 (bs r : List Nat) (h : bs.length < 4294967296) :
    munpackStep goN (219 :: (toBE 4 bs.length ++ (bs ++ r)))
      = some (Val.vstr bs, r) := by
  simp [munpackStep, readN_toBE, fromBE_toBE 4 bs.length (by norm_num; omega),
    readN_exact]

theorem munpackStep_bin8 (bs r : List Nat) :
    munpackStep goN (196 :: bs.length :: (bs ++ r)) = some (Val.vbytes bs, r) := by
  simp [munpackStep, readN_exact]

theorem munpackStep_bin16 (bs r : List Nat) (h : bs.length < 65536) :
    munpackStep goN (197 :: (toBE 2 bs.length ++ (bs ++ r)))
      = some (Val.vbytes bs, r) := by
  simp [munpackStep, readN_toBE, fromBE_toBE 2 bs.length (by norm_num; omega),
    readN_exact]

theorem munpackStep_bin32 (bs r : List Nat) (h : bs.length < 4294967296) :
    munpackStep goN (198 :: (toBE 4 bs.length ++ (bs ++ r)))
      = some (Val.vbytes bs, r) := by
  simp [munpackStep, readN_toBE, fromBE_toBE 4 bs.length (by norm_num; omega),
    readN_exact]

theorem munpackStep_fixarray (count : Nat) (r r2 : List Nat) (vs : List Val)
    (h : count < 16) (hN : goN count r = some (vs, r2)) :
    munpackStep goN ((144 + count) :: r) = some (Val.vlist vs, r2) := by
  have h1 : ¬ 144 + count < 128 := by omega
  have h2 : ¬ 224 ≤ 144 + count := by omega
  have h3 : ¬ (160 ≤ 144 + count ∧ 144 + count < 192) := by omega
  have h4 : 144 ≤ 144 + count ∧ 144 + count < 160 := by omega
  have h5 : 144 + count - 144 = count := by omega
  simp [munpackStep, h1, h2, h3, h4, h5, hN]

theorem munpackStep_array16 (count : Nat) (r r2 : List Nat) (vs : List Val)
    (h : count < 65536) (hN : goN count r = some (vs, r2)) :
    munpackStep goN (220 :: (toBE 2 count ++ r)) = some (Val.vlist vs, r2) := by
  simp [munpackStep, readN_toBE, fromBE_toBE 2 count (by norm_num; omega), hN]

theorem munpackStep_array32 (count : Nat) (r r2 : List Nat) (vs : List Val)
    (h : count < 4294967296) (hN : goN count r = some (vs, r2)) :
    munpackStep goN (221 :: (toBE 4 count ++ r)) = some (Val.vlist vs, r2) := by
  simp [munpackStep, readN_toBE, fromBE_toBE 4 count (by norm_num; omega), hN]

theorem munpackStep_mpack_vint (n : Int) (rest : List Nat)
    (h1 : -9223372036854775808 ≤ n) (h2 : n < 18446744073709551616) :
    munpackStep goN (mpack (Val.vint n) ++ rest) = some (Val.vint n, rest) := by
  by_cases h0 : 0 ≤ n
  · have hmn : ((n.toNat : Int)) = n := by omega
    by_cases hb1 : n.toNat < 128
    · have hp : mpack (Val.vint n) = [n.toNat] := by
        simp only [mpack, if_pos h0]
        rw [if_pos hb1]
      rw [hp, List.cons_append, List.nil_append, munpackStep_fixint goN _ _ hb1, hmn]
    · by_cases hb2 : n.toNat < 256
      · have hp : mpack (Val.vint n) = [204, n.toNat] := by
          simp only [mpack, if_pos h0]
          rw [if_neg hb1, if_pos hb2]
        rw [hp, List.cons_append, List.cons_append, List.nil_append,
          munpackStep_uint8, hmn]
      · by_cases hb3 : n.toNat < 65536
        · have hp : mpack (Val.vint n) = 205 :: toBE 2 n.toNat := by
            simp only [mpack, if_pos h0]
            rw [if_neg hb1, if_neg hb2, if_pos hb3]
          rw [hp, List.cons_append, munpackStep_uint16 goN _ _ hb3, hmn]
        · by_cases hb4 : n.toNat < 4294967296
          · have hp : mpack (Val.vint n) = 206 :: toBE 4 n.toNat := by
              simp only [mpack, if_pos h0]
              rw [if_neg hb1, if_neg hb2, if_neg hb3, if_pos hb4]
            rw [hp, List.cons_append, munpackStep_uint32 goN _ _ hb4, hmn]
          · have hb5 : n.toNat < 18446744073709551616 := by omega
            have hp : mpack (Val.vint n) = 207 :: toBE 8 n.toNat := by
              simp only [mpack, if_pos h0]
              rw [if_neg hb1, if_neg hb2, if_neg hb3, if_neg hb4]
            rw [hp, List.cons_append, munpackStep_uint64 goN _ _ hb5, hmn]
  · by_cases hc1 : -32 ≤ n
    · have hp : mpack (Val.vint n) = [(n + 256).toNat] := by
        simp only [mpack, if_neg h0]
        rw [if_pos hc1]
      have he : (((n + 256).toNat : Int)) - 256 = n := by omega
      rw [hp, List.cons_append, List.nil_append,
        munpackStep_fixneg goN _ _ (by omega : 224 ≤ (n + 256).toNat), he]
    · by_cases hc2 : -128 ≤ n
      · have hp : mpack (Val.vint n) = [208, (n + 256).toNat] := by
          simp only [mpack, if_neg h0]
          rw [if_neg hc1, if_pos hc2]
        have he : (((n + 256).toNat : Int)) - 256 = n := by omega
        rw [hp, List.cons_append, List.cons_append, List.nil_append,
          munpackStep_int8 goN _ _ (by omega : 128 ≤ (n + 256).toNat), he]
      · by_cases hc3 : -32768 ≤ n
        · have hp : mpack (Val.vint n) = 209 :: toBE 2 (n + 65536).toNat := by
            simp only [mpack, if_neg h0]
            rw [if_neg hc1, if_neg hc2, if_pos hc3]
          have he : (((n + 65536).toNat : Int)) - 65536 = n := by omega
          rw [hp, List.cons_append,
            munpackStep_int16 goN _ _ (by omega) (by omega), he]
        · by_cases hc4 : -2147483648 ≤ n
          · have hp : mpack (Val.vint n) = 210 :: toBE 4 (n + 4294967296).toNat := by
              simp only [mpack, if_neg h0]
              rw [if_neg hc1, if_neg hc2, if_neg hc3, if_pos hc4]
            have he : (((n + 4294967296).toNat : Int)) - 4294967296 = n := by omega
            rw [hp, List.cons_append,
              munpackStep_int32 goN _ _ (by omega) (by omega), he]
          · have hp : mpack (Val.vint n)
                = 211 :: toBE 8 (n + 18446744073709551616).toNat := by
              simp only [mpack, if_neg h0]
              rw [if_neg hc1, if_neg hc2, if_neg hc3, if_neg hc4]
            have he : (((n + 18446744073709551616).toNat : Int))
                - 18446744073709551616 = n := by omega
            rw [hp, List.cons_append,
              munpackStep_int64 goN _ _ (by omega) (by omega), he]

theorem munpackStep_mpack_vstr (bs rest : List Nat)
    (h : bs.length < 4294967296) :
    munpackStep goN (mpack (Val.vstr bs) ++ rest) = some (Val.vstr bs, rest) := by
  by_cases hb1 : bs.length < 32
  · have hp : mpack (Val.vstr bs) = (160 + bs.length) :: bs := by
      simp only [mpack]
      rw [if_pos hb1]
    rw [hp, List.cons_append, munpackStep_fixstr goN bs rest hb1]
  · by_cases hb2 : bs.length < 256
    · have hp : mpack (Val.vstr bs) = 217 :: bs.length :: bs := by
        simp only [mpack]
        rw [if_neg hb1, if_pos hb2]
      rw [hp, List.cons_append, List.cons_append, munpackStep_str8]
    · by_cases hb3 : bs.length < 65536
      · have hp : mpack (Val.vstr bs) = 218 :: (toBE 2 bs.length ++ bs) := by
          simp only [mpack]
          rw [if_neg hb1, if_neg hb2, if_pos hb3]
          rfl
        rw [hp, List.cons_append, List.append_assoc, munpackStep_str16 goN bs rest hb3]
      · have hp : mpack (Val.vstr bs) = 219 :: (toBE 4 bs.length ++ bs) := by
          simp only [mpack]
          rw [if_neg hb1, if_neg hb2, if_neg hb3]
          rfl
        rw [hp, List.cons_append, List.append_assoc, munpackStep_str32 goN bs rest h]

theorem munpackStep_mpack_vbytes (bs rest : List Nat)
    (h : bs.length < 4294967296) :
    munpackStep goN (mpack (Val.vbytes bs) ++ rest) = some (Val.vbytes bs, rest) := by
  by_cases hb1 : bs.length < 256
  · have hp : mpack (Val.vbytes bs) = 196 :: bs.length :: bs := by
      simp only [mpack]
      rw [if_pos hb1]
    rw [hp, List.cons_append, List.cons_append, munpackStep_bin8]
  · by_cases hb2 : bs.length < 65536
    · have hp : mpack (Val.vbytes bs) = 197 :: (toBE 2 bs.length ++ bs) := by
        simp only [mpack]
        rw [if_neg hb1, if_pos hb2]
        rfl
      rw [hp, List.cons_append, List.append_assoc, munpackStep_bin16 goN bs rest hb2]
    · have hp : mpack (Val.vbytes bs) = 198 :: (toBE 4 bs.length ++ bs) := by
        simp only [mpack]
        rw [if_neg hb1, if_neg hb2]
        rfl
      rw [hp, List.cons_append, List.append_assoc, munpackStep_bin32 goN bs rest h]

end StepLemmas

theorem mencListB_cons (v : Val) (vs : List Val) :
    mencListB (v :: vs) = (mencB v && mencListB vs) := rfl

theorem mencListB_mem (vs : List Val) (v : Val) (h : mencListB vs = true)
    (hm : v ∈ vs) : mencB v = true := by
  induction vs with
  | nil => cases hm
  | cons w ws ih =>
    rw [mencListB_cons, Bool.and_eq_true] at h
    rcases List.mem_cons.mp hm with he | ht
    · rw [he]
      exact h.1
    · exact ih h.2 ht

theorem vdepthList_cons (v : Val) (vs : List Val) :
    vdepthList (v :: vs) = max (vdepth v) (vdepthList vs) := rfl

theorem vdepthList_mem (vs : List Val) (v : Val) (hm : v ∈ vs) :
    vdepth v ≤ vdepthList vs := by
  induction vs with
  | nil => cases hm
  | cons w ws ih =>
    rw [vdepthList_cons]
    rcases List.mem_cons.mp hm with he | ht
    · rw [he]
      exact le_max_left _ _
    · exact le_trans (ih ht) (le_max_right _ _)

theorem mpackList_cons (v : Val) (vs : List Val) :
    mpackList (v :: vs) = mpack v ++ mpackList vs := rfl

theorem munpackGo_mpackList (step : List Nat → Option (Val × List Nat)) :
    (vs : List Val) → (rest : List Nat) →
    (∀ v ∈ vs, ∀ r2, step (mpack v ++ r2) = some (v, r2)) →
    munpackGo step vs.length (mpackList vs ++ rest) = some (vs, rest)
  | [], rest, _ => rfl
  | v :: vs, rest, hstep => by
    have h1 := hstep v (List.mem_cons_self v vs) (mpackList vs ++ rest)
    have h2 := munpackGo_mpackList step vs rest
      (fun w hw r2 => hstep w (List.mem_cons_of_mem v hw) r2)
    show munpackGo step (vs.length + 1) ((mpack v ++ mpackList vs) ++ rest)
      = some (v :: vs, rest)
    rw [List.append_assoc]
    simp [munpackGo, h1, h2]

theorem munpack_mpack : (fuel : Nat) → (v : Val) → (rest : List Nat) →
    mencB v = true → vdepth v ≤ fuel →
    munpack fuel (mpack v ++ rest) = some (v, rest)
  | 0, v, _, _, hd => by
    have := vdepth_pos v
    omega
  | fuel + 1, Val.vnull, rest, _, _ => by
    rw [munpack_succ]
    simp [mpack, munpackStep]
  | fuel + 1, Val.vbool b, rest, _, _ => by
    rw [munpack_succ]
    cases b <;> simp [mpack, munpackStep]
  | fuel + 1, Val.vint n, rest, henc, _ => by
    have hb : -9223372036854775808 ≤ n ∧ n < 18446744073709551616 := by
      simpa [mencB] using henc
    rw [munpack_succ]
    exact munpackStep_mpack_vint _ n rest hb.1 hb.2
  | fuel + 1, Val.vstr bs, rest, henc, _ => by
    have hb : bs.length < 4294967296 := by
      have h2 := henc
      simp [mencB] at h2
      exact h2.1
    rw [munpack_succ]
    exact munpackStep_mpack_vstr _ bs rest hb
  | fuel + 1, Val.vbytes bs, rest, henc, _ => by
    have hb : bs.length < 4294967296 := by
      have h2 := henc
      simp [mencB] at h2
      exact h2.1
    rw [munpack_succ]
    exact munpackStep_mpack_vbytes _ bs rest hb
  | fuel + 1, Val.vlist vs, rest, henc, hd => by
    have hb : vs.length < 4294967296 ∧ mencListB vs = true := by
      simpa [mencB] using henc
    have hdl : vdepthList vs ≤ fuel := by
      have hv : vdepth (Val.vlist vs) = vdepthList vs + 1 := rfl
      omega
    have hN : munpackGo (munpack fuel) vs.length (mpackList vs ++ rest)
        = some (vs, rest) :=
      munpackGo_mpackList (munpack fuel) vs rest
        (fun w hw r2 => munpack_mpack fuel w r2 (mencListB_mem vs w hb.2 hw)
          (le_trans (vdepthList_mem vs w hw) hdl))
    rw [munpack_succ]
    by_cases hb1 : vs.length < 16
    · have hp : mpack (Val.vlist vs) = (144 + vs.length) :: mpackList vs := by
        simp only [mpack]
        rw [if_pos hb1]
        simp
      rw [hp, List.cons_append]
      exact munpackStep_fixarray _ vs.length (mpackList vs ++ rest) rest vs hb1 hN
    · by_cases hb2 : vs.length < 65536
      · have hp : mpack (Val.vlist vs) = 220 :: (toBE 2 vs.length ++ mpackList vs) := by
          simp only [mpack]
          rw [if_neg hb1, if_pos hb2]
          simp
        rw [hp, List.cons_append, List.append_assoc]
        exact munpackStep_array16 _ vs.length (mpackList vs ++ rest) rest vs hb2 hN
      · have hp : mpack (Val.vlist vs) = 221 :: (toBE 4 vs.length ++ mpackList vs) := by
          simp only [mpack]
          rw [if_neg hb1, if_neg hb2]
          simp
        rw [hp, List.cons_append, List.append_assoc]
        exact munpackStep_array32 _ vs.length (mpackList vs ++ rest) rest vs hb.1 hN

/-- Round trip of the msgpack model at the library surface. -/
theorem msgUnpackb_mpack (v : Val) (h : mencB v = true) :
    msgUnpackb (mpack v) = Except.ok v := by
  have hm := munpack_mpack (2 * (mpack v).length + 2) v [] h
    (by have := vdepth_le_mpack v; omega)
  rw [List.append_nil] at hm
  simp [msgUnpackb, hm]

/-! Round-trip of the JSON model. -/

theorem natDigitsRev_eq_digits : (fuel n : Nat) → n ≤ fuel →
    natDigitsRev fuel n = Nat.digits 10 n
  | 0, n, h => by
    have hn : n = 0 := by omega
    simp [hn, natDigitsRev]
  | fuel + 1, n, h => by
    by_cases h0 : n = 0
    · simp [h0, natDigitsRev]
    · rw [natDigitsRev, if_neg h0,
        natDigitsRev_eq_digits fuel (n / 10) (by omega),
        ← Nat.digits_def' (by norm_num : 1 < 10) (Nat.pos_of_ne_zero h0)]

theorem natDecimal_digits (n : Nat) : ∀ b ∈ natDecimal n, isDigit b = true := by
  intro b hb
  by_cases h0 : n = 0
  · rw [natDecimal, if_pos h0] at hb
    simp at hb
    rw [hb]
    rfl
  · rw [natDecimal, if_neg h0, natDigitsRev_eq_digits n n le_rfl] at hb
    simp only [List.mem_reverse, List.mem_map] at hb
    obtain ⟨d, hd, hdb⟩ := hb
    have hlt : d < 10 := Nat.digits_lt_base (by norm_num) hd
    simp [isDigit]
    omega

theorem natDecimal_ne_nil (n : Nat) : natDecimal n ≠ [] := by
  by_cases h0 : n = 0
  · simp [natDecimal, h0]
  · rw [natDecimal, if_neg h0, natDigitsRev_eq_digits n n le_rfl]
    simp [Nat.digits_ne_nil_iff_ne_zero, h0]

theorem digitsVal_natDecimal (n : Nat) : digitsVal (natDecimal n) = n := by
  by_cases h0 : n = 0
  · rw [natDecimal, if_pos h0, h0]
    rfl
  · rw [natDecimal, if_neg h0, natDigitsRev_eq_digits n n le_rfl]
    unfold digitsVal
    rw [List.map_reverse, List.reverse_reverse, List.map_map]
    have hid : ((fun b => b - 48) ∘ fun d => d + 48) = (id : Nat → Nat) :=
      funext fun d => by simp
    rw [hid, List.map_id, Nat.ofDigits_digits]

theorem parseDigits_append : (ds rest : List Nat) →
    (∀ b ∈ ds, isDigit b = true) → jdelimB rest = true →
    parseDigits (ds ++ rest) = (ds, rest)
  | [], rest, _, hrest => by
    cases rest with
    | nil => rfl
    | cons b t =>
      have hb : isDigit b = false := by simpa [jdelimB] using hrest
      simp [parseDigits, hb]
  | d :: ds, rest, hds, hrest => by
    have hd : isDigit d = true := hds d (List.mem_cons_self d ds)
    have ih := parseDigits_append ds rest
      (fun b hb => hds b (List.mem_cons_of_mem d hb)) hrest
    simp [parseDigits, hd, ih]

theorem takeUntilQuote_append : (bs rest : List Nat) → (∀ b ∈ bs, b ≠ 34) →
    takeUntilQuote (bs ++ 34 :: rest) = some (bs, rest)
  | [], rest, _ => by simp [takeUntilQuote]
  | b :: bs, rest, h => by
    have hb : b ≠ 34 := h b (List.mem_cons_self b bs)
    have ih := takeUntilQuote_append bs rest (fun c hc => h c (List.mem_cons_of_mem b hc))
    simp [takeUntilQuote, hb, ih]

theorem jsonWfListB_cons (v : Val) (vs : List Val) :
    jsonWfListB (v :: vs) = (jsonWfB v && jsonWfListB vs) := rfl

theorem jsonWfListB_mem (vs : List Val) (v : Val) (h : jsonWfListB vs = true)
    (hm : v ∈ vs) : jsonWfB v = true := by
  induction vs with
  | nil => cases hm
  | cons w ws ih =>
    rw [jsonWfListB_cons, Bool.and_eq_true] at h
    rcases List.mem_cons.mp hm with he | ht
    · rw [he]
      exact h.1
    · exact ih h.2 ht

theorem jsonWfB_vstr_mem (bs : List Nat) (h : jsonWfB (Val.vstr bs) = true) :
    ∀ b ∈ bs, 32 ≤ b ∧ b ≤ 126 ∧ b ≠ 34 ∧ b ≠ 92 := by
  intro b hb
  have h2 := List.all_eq_true.mp h b hb
  simp at h2
  omega

theorem jprintSep_single (v : Val) : jprintSep [v] = jprint v := rfl

theorem jprintSep_cons2 (v w : Val) (ws : List Val) :
    jprintSep (v :: w :: ws) = jprint v ++ 44 :: jprintSep (w :: ws) := rfl

theorem jprint_length_pos (v : Val) : 1 ≤ (jprint v).length := by
  cases v with
  | vnull => simp [jprint]
  | vbool b => cases b <;> simp [jprint]
  | vint n =>
    simp only [jprint]
    split_ifs with hn
    · simp
    · exact List.length_pos.mpr (natDecimal_ne_nil n.toNat)
  | vstr bs => simp [jprint]
  | vbytes bs => simp [jprint]
  | vlist vs => simp [jprint]

theorem jprint_head (v : Val) (hwf : jsonWfB v = true) :
    ∃ b t, jprint v = b :: t ∧ b ≠ 93 := by
  cases v with
  | vnull => exact ⟨110, _, rfl, by norm_num⟩
  | vbool b =>
    cases b with
    | false => exact ⟨102, _, rfl, by norm_num⟩
    | true => exact ⟨116, _, rfl, by norm_num⟩
  | vint n =>
    by_cases hn : n < 0
    · refine ⟨45, natDecimal (-n).toNat, ?_, by norm_num⟩
      simp [jprint, hn]
    · obtain ⟨d, ds, hds⟩ := List.exists_cons_of_ne_nil (natDecimal_ne_nil n.toNat)
      refine ⟨d, ds, by simp [jprint, hn, hds], ?_⟩
      have hd : isDigit d = true := natDecimal_digits n.toNat d (hds ▸ List.mem_cons_self d ds)
      simp [isDigit] at hd
      omega
  | vstr bs => exact ⟨34, _, rfl, by norm_num⟩
  | vbytes bs => simp [jsonWfB] at hwf
  | vlist vs => exact ⟨91, _, rfl, by norm_num⟩

theorem jprintSep_length : (vs : List Val) → vs.length ≤ (jprintSep vs).length + 1
  | [] => by simp [jprintSep]
  | [v] => by
    simp [jprintSep_single]
  | v :: w :: ws => by
    have h1 := jprint_length_pos v
    have ih := jprintSep_length (w :: ws)
    rw [jprintSep_cons2]
    simp only [List.length_cons, List.length_append] at ih ⊢
    omega

mutual

theorem vdepth_le_jprint : (v : Val) → vdepth v ≤ (jprint v).length
  | Val.vnull => jprint_length_pos Val.vnull
  | Val.vbool b => jprint_length_pos (Val.vbool b)
  | Val.vint n => jprint_length_pos (Val.vint n)
  | Val.vstr bs => jprint_length_pos (Val.vstr bs)
  | Val.vbytes bs => jprint_length_pos (Val.vbytes bs)
  | Val.vlist vs => by
    have h := vdepthList_le_jprintSep vs
    have hp : (jprint (Val.vlist vs)).length = (jprintSep vs).length + 2 := by
      simp [jprint]
    simp only [vdepth]
    omega

theorem vdepthList_le_jprintSep : (vs : List Val) →
    vdepthList vs ≤ (jprintSep vs).length + 1
  | [] => by simp [vdepthList, jprintSep]
  | [v] => by
    have h := vdepth_le_jprint v
    rw [jprintSep_single]
    simp [vdepthList_cons, vdepthList]
    omega
  | v :: w :: ws => by
    have h1 := vdepth_le_jprint v
    have h2 := vdepthList_le_jprintSep (w :: ws)
    rw [vdepthList_cons, jprintSep_cons2]
    simp only [List.length_append, List.length_cons]
    omega

end

theorem jparse_succ (fuel : Nat) (l : List Nat) :
    jparse (fuel + 1) l
      = jparseStep (fun r => jparseElemsGo (jparse fuel) (r.length + 1) r) l := rfl

section JStepLemmas

variable (elems : List Nat → Option (List Val × List Nat))

theorem jparseStep_null (r : List Nat) :
    jparseStep elems (110 :: 117 :: 108 :: 108 :: r) = some (Val.vnull, r) := by
  simp [jparseStep]

theorem jparseStep_true (r : List Nat) :
    jparseStep elems (116 :: 114 :: 117 :: 101 :: r) = some (Val.vbool true, r) := by
  simp [jparseStep]

theorem jparseStep_false (r : List Nat) :
    jparseStep elems (102 :: 97 :: 108 :: 115 :: 101 :: r)
      = some (Val.vbool false, r) := by
  simp [jparseStep]

theorem jparseStep_str (bs r : List Nat) (h : ∀ b ∈ bs, b ≠ 34) :
    jparseStep elems (34 :: (bs ++ 34 :: r)) = some (Val.vstr bs, r) := by
  have ht := takeUntilQuote_append bs r h
  simp [jparseStep, ht]

theorem jparseStep_nil_list (r : List Nat) :
    jparseStep elems (91 :: 93 :: r) = some (Val.vlist [], r) := by
  simp [jparseStep]

theorem jparseStep_cons_list (b : Nat) (t r2 : List Nat) (vs : List Val)
    (hb : b ≠ 93) (hE : elems (b :: t) = some (vs, r2)) :
    jparseStep elems (91 :: b :: t) = some (Val.vlist vs, r2) := by
  simp only [jparseStep]
  norm_num
  split
  · next heq =>
    injection heq with h1 h2
    exact absurd h1 hb
  · next =>
    rw [hE]

theorem jparseStep_int_pos (d : Nat) (ds r : List Nat) (hd : isDigit d = true)
    (hds : ∀ b ∈ ds, isDigit b = true) (hr : jdelimB r = true) :
    jparseStep elems (d :: (ds ++ r)) = some (Val.vint (digitsVal (d :: ds)), r) := by
  have hdb : 48 ≤ d ∧ d ≤ 57 := by simpa [isDigit] using hd
  have h1 : ¬ d = 110 := by omega
  have h2 : ¬ d = 116 := by omega
  have h3 : ¬ d = 102 := by omega
  have h4 : ¬ d = 34 := by omega
  have h5 : ¬ d = 91 := by omega
  have h6 : ¬ d = 45 := by omega
  have hp := parseDigits_append ds r hds hr
  simp [jparseStep, h1, h2, h3, h4, h5, h6, hd, hp]

theorem jparseStep_int_neg (d : Nat) (ds r : List Nat) (hd : isDigit d = true)
    (hds : ∀ b ∈ ds, isDigit b = true) (hr : jdelimB r = true) :
    jparseStep elems (45 :: ((d :: ds) ++ r))
      = some (Val.vint (-(digitsVal (d :: ds) : Int)), r) := by
  have hp := parseDigits_append (d :: ds) r
    (fun b hb => by
      rcases List.mem_cons.mp hb with he | ht
      · rw [he]; exact hd
      · exact hds b ht) hr
  rw [List.cons_append] at hp
  simp [jparseStep, hp]

end JStepLemmas

theorem jparseElemsGo_sep (step : List Nat → Option (Val × List Nat)) :
    (vs : List Val) → (gas : Nat) → (rest : List Nat) →
    vs ≠ [] → vs.length ≤ gas →
    (∀ v ∈ vs, ∀ r2, jdelimB r2 = true → step (jprint v ++ r2) = some (v, r2)) →
    jparseElemsGo step gas (jprintSep vs ++ 93 :: rest) = some (vs, rest)
  | [], _, _, hne, _, _ => absurd rfl hne
  | [v], gas, rest, _, hgas, hstep => by
    obtain ⟨g, rfl⟩ : ∃ g, gas = g + 1 := ⟨gas - 1, by simp at hgas; omega⟩
    have h1 := hstep v (List.mem_cons_self v []) (93 :: rest) rfl
    rw [jprintSep_single]
    simp [jparseElemsGo, h1]
  | v :: w :: ws, gas, rest, _, hgas, hstep => by
    obtain ⟨g, rfl⟩ : ∃ g, gas = g + 1 := ⟨gas - 1, by simp at hgas; omega⟩
    have h1 := hstep v (List.mem_cons_self v (w :: ws))
      (44 :: (jprintSep (w :: ws) ++ 93 :: rest)) rfl
    have ih := jparseElemsGo_sep step (w :: ws) g rest (by simp)
      (by simp at hgas ⊢; omega)
      (fun u hu => hstep u (List.mem_cons_of_mem v hu))
    rw [jprintSep_cons2, List.append_assoc, List.cons_append]
    simp [jparseElemsGo, h1, ih]

theorem jparse_jprint : (fuel : Nat) → (v : Val) → (rest : List Nat) →
    jsonWfB v = true → vdepth v ≤ fuel → jdelimB rest = true →
    jparse fuel (jprint v ++ rest) = some (v, rest)
  | 0, v, _, _, hd, _ => by
    have := vdepth_pos v
    omega
  | fuel + 1, Val.vnull, rest, _, _, _ => by
    rw [jparse_succ]
    exact jparseStep_null _ rest
  | fuel + 1, Val.vbool true, rest, _, _, _ => by
    rw [jparse_succ]
    exact jparseStep_true _ rest
  | fuel + 1, Val.vbool false, rest, _, _, _ => by
    rw [jparse_succ]
    exact jparseStep_false _ rest
  | fuel + 1, Val.vint n, rest, hwf, _, hdel => by
    rw [jparse_succ]
    by_cases hn : n < 0
    · have hp : jprint (Val.vint n) = 45 :: natDecimal (-n).toNat := by
        simp [jprint, hn]
      obtain ⟨d, ds, hds⟩ := List.exists_cons_of_ne_nil (natDecimal_ne_nil (-n).toNat)
      have hdig : ∀ b ∈ natDecimal (-n).toNat, isDigit b = true :=
        natDecimal_digits (-n).toNat
      rw [hp, hds, List.cons_append,
        jparseStep_int_neg _ d ds rest
          (hdig d (hds ▸ List.mem_cons_self d ds))
          (fun b hb => hdig b (hds ▸ List.mem_cons_of_mem d hb)) hdel]
      have hdv : (digitsVal (d :: ds) : Int) = -n := by
        rw [← hds, digitsVal_natDecimal]
        omega
      rw [hdv]
      norm_num
    · have hp : jprint (Val.vint n) = natDecimal n.toNat := by
        simp [jprint, hn]
      obtain ⟨d, ds, hds⟩ := List.exists_cons_of_ne_nil (natDecimal_ne_nil n.toNat)
      have hdig : ∀ b ∈ natDecimal n.toNat, isDigit b = true :=
        natDecimal_digits n.toNat
      rw [hp, hds, List.cons_append,
        jparseStep_int_pos _ d ds rest
          (hdig d (hds ▸ List.mem_cons_self d ds))
          (fun b hb => hdig b (hds ▸ List.mem_cons_of_mem d hb)) hdel]
      have hdv : (digitsVal (d :: ds) : Int) = n := by
        rw [← hds, digitsVal_natDecimal]
        omega
      rw [hdv]
  | fuel + 1, Val.vstr bs, rest, hwf, _, _ => by
    rw [jparse_succ]
    have hmem : ∀ b ∈ bs, b ≠ 34 := fun b hb => (jsonWfB_vstr_mem bs hwf b hb).2.2.1
    have hp : jprint (Val.vstr bs) ++ rest = 34 :: (bs ++ 34 :: rest) := by
      simp [jprint]
    rw [hp]
    exact jparseStep_str _ bs rest hmem
  | fuel + 1, Val.vbytes bs, rest, hwf, _, _ => by
    simp [jsonWfB] at hwf
  | fuel + 1, Val.vlist [], rest, _, _, _ => by
    rw [jparse_succ]
    have hp : jprint (Val.vlist []) ++ rest = 91 :: 93 :: rest := rfl
    rw [hp]
    exact jparseStep_nil_list _ rest
  | fuel + 1, Val.vlist (v :: vs2), rest, hwf, hd, _ => by
    rw [jparse_succ]
    have hwfl : jsonWfListB (v :: vs2) = true := by simpa [jsonWfB] using hwf
    have hdl : vdepthList (v :: vs2) ≤ fuel := by
      have hv : vdepth (Val.vlist (v :: vs2)) = vdepthList (v :: vs2) + 1 := rfl
      omega
    have hstep : ∀ u ∈ v :: vs2, ∀ r2, jdelimB r2 = true →
        jparse fuel (jprint u ++ r2) = some (u, r2) :=
      fun u hu r2 hr2 => jparse_jprint fuel u r2
        (jsonWfListB_mem (v :: vs2) u hwfl hu)
        (le_trans (vdepthList_mem (v :: vs2) u hu) hdl) hr2
    have hE := jparseElemsGo_sep (jparse fuel) (v :: vs2)
      ((jprintSep (v :: vs2) ++ 93 :: rest).length + 1) rest (by simp)
      (by
        have := jprintSep_length (v :: vs2)
        simp only [List.length_append, List.length_cons] at this ⊢
        omega)
      hstep
    obtain ⟨b, t, hbt, hb93⟩ := jprint_head v (jsonWfListB_mem (v :: vs2) v hwfl
      (List.mem_cons_self v vs2))
    obtain ⟨X, hX⟩ : ∃ X, jprintSep (v :: vs2) = jprint v ++ X := by
      cases vs2 with
      | nil => exact ⟨[], by simp [jprintSep_single]⟩
      | cons w ws => exact ⟨44 :: jprintSep (w :: ws), rfl⟩
    have hr : jprintSep (v :: vs2) ++ 93 :: rest = b :: (t ++ (X ++ 93 :: rest)) := by
      rw [hX, hbt]
      simp
    have hp : jprint (Val.vlist (v :: vs2)) ++ rest
        = 91 :: (jprintSep (v :: vs2) ++ 93 :: rest) := by
      simp [jprint]
    rw [hp, hr]
    rw [hr] at hE
    exact jparseStep_cons_list _ b (t ++ (X ++ 93 :: rest)) rest (v :: vs2) hb93
      (by
        rw [← hr]
        simpa [hr] using hE)

/-- Round trip of the JSON model at the library surface. -/
theorem jsonLoads_jprint (v : Val) (h : jsonWfB v = true) :
    jsonLoads (jprint v) = Except.ok v := by
  have hp := jparse_jprint (2 * (jprint v).length + 2) v [] h
    (by have := vdepth_le_jprint v; omega) rfl
  rw [List.append_nil] at hp
  simp [jsonLoads, hp]

/-- Round trip of the pickle model. -/
theorem pickleLoads_pickleDumps (v : Val) (h : mencB v = true) :
    pickleLoads (pickleDumps v) = Except.ok v := by
  have hm := munpack_mpack (2 * ((mpack v).length + 1) + 2) v [46] h
    (by have := vdepth_le_mpack v; omega)
  simp [pickleDumps, pickleLoads, hm]

theorem mpack_ne_nil (v : Val) : mpack v ≠ [] := by
  have h := mpack_length_pos v
  intro hh
  rw [hh] at h
  simp at h

/-- Claim C8: for every value in the format's domain and each format string —
msgpack, json, or the pickle fallback — deserialize inverts serialize. -/
theorem serialize_then_deserialize_roundtrips (v : Val) (format : String)
    (h : serializableFor format v = true) :
    ∃ bs, serialize v format = Except.ok bs ∧ deserialize bs format = Except.ok v := by
  by_cases hf1 : format = "msgpack"
  · have hm : mencB v = true := by simpa [serializableFor, hf1] using h
    exact ⟨mpack v, by simp [serialize, hf1, msgPackb, hm],
      by simp [deserialize, hf1, msgUnpackb_mpack v hm]⟩
  · by_cases hf2 : format = "json"
    · have hj : jsonWfB v = true := by simpa [serializableFor, hf1, hf2] using h
      exact ⟨jprint v, by simp [serialize, hf1, hf2, jsonDumps, hj],
        by simp [deserialize, hf1, hf2, jsonLoads_jprint v hj]⟩
    · have hm : mencB v = true := by simpa [serializableFor, hf1, hf2] using h
      exact ⟨pickleDumps v, by simp [serialize, hf1, hf2],
        by simp [deserialize, hf1, hf2, pickleLoads_pickleDumps v hm]⟩

/-- Witness for the C8 theorem at a concrete value and format. -/
theorem serialize_then_deserialize_roundtrips_witness :
    serializableFor "msgpack" (Val.vlist [Val.vint 300, Val.vstr [104, 105], Val.vnull])
      = true ∧
    ∃ bs, serialize (Val.vlist [Val.vint 300, Val.vstr [104, 105], Val.vnull]) "msgpack"
        = Except.ok bs ∧
      deserialize bs "msgpack"
        = Except.ok (Val.vlist [Val.vint 300, Val.vstr [104, 105], Val.vnull]) :=
  ⟨rfl, serialize_then_deserialize_roundtrips
    (Val.vlist [Val.vint 300, Val.vstr [104, 105], Val.vnull]) "msgpack" rfl⟩

/-- Claim C7, exhibit of the code bug: for any value whose msgpack bytes
exceed the 1024-byte threshold, compress_value emits a zlib level-1 stream
(header 0x78 0x01), but decompress_value looks for the level-6 header
0x78 0x9c, skips decompression, fails to msgpack-decode the compressed
stream, and falls back to returning the raw compressed bytes — not the
original value. -/
theorem compressed_roundtrip_returns_raw_bytes (v : Val) (henc : mencB v = true)
    (hbig : 1024 < (mpack v).length) :
    compress_value v = Except.ok (zlibCompress (mpack v)) ∧
    (zlibCompress (mpack v)).take 2 ≠ [120, 156] ∧
    decompress_value (zlibCompress (mpack v)) = Val.vbytes (zlibCompress (mpack v)) ∧
    Val.vbytes (zlibCompress (mpack v)) ≠ v := by
  have hmu : msgUnpackb (120 :: 1 :: mpack v) = Except.error () := by
    unfold msgUnpackb
    obtain ⟨f, hf⟩ : ∃ f, 2 * (120 :: 1 :: mpack v).length + 2 = f + 1 :=
      ⟨2 * (120 :: 1 :: mpack v).length + 1, by omega⟩
    rw [hf, munpack_succ, munpackStep_fixint _ 120 _ (by norm_num)]
  refine ⟨?_, ?_, ?_, ?_⟩
  · simp [compress_value, serialize, msgPackb, henc, hbig]
  · simp [zlibCompress]
  · show decompress_value (120 :: 1 :: mpack v) = Val.vbytes (120 :: 1 :: mpack v)
    simp [decompress_value, deserialize, hmu]
  · intro hv
    have hmp : (mpack (Val.vbytes (zlibCompress (mpack v)))).length = (mpack v).length :=
      congrArg (fun w => (mpack w).length) hv
    have hlen := mpack_vbytes_length (zlibCompress (mpack v))
    have hz : (zlibCompress (mpack v)).length = (mpack v).length + 2 := by
      simp [zlibCompress]
    omega

/-- Witness for the C7 theorem at a concrete oversized value. -/
theorem compressed_roundtrip_returns_raw_bytes_witness :
    mencB bigVal = true ∧ 1024 < (mpack bigVal).length ∧
    (compress_value bigVal = Except.ok (zlibCompress (mpack bigVal)) ∧
     (zlibCompress (mpack bigVal)).take 2 ≠ [120, 156] ∧
     decompress_value (zlibCompress (mpack bigVal))
        = Val.vbytes (zlibCompress (mpack bigVal)) ∧
     Val.vbytes (zlibCompress (mpack bigVal)) ≠ bigVal) :=
  ⟨rfl, by decide,
   compressed_roundtrip_returns_raw_bytes bigVal rfl (by decide)⟩

end FastMem
